import Mathlib

/-!
# Verification of the volumepan swap-volume engine

Shallow embedding of the core of `src/node.js`: the pagination loop
(`fetchAll`), the endpoint-fallback fetcher (`fetchWithFallbacks`) and the
deduplicating per-wallet aggregator (`aggregate`), together with proofs of
the specification's testable properties.

Modelling conventions:
* JavaScript numbers used for USD amounts are modelled by `Rat` (exact
  arithmetic); the spec itself treats float rounding as a non-issue.
* A missing / non-numeric `amountUSD` (JS `Number(s.amountUSD || 0) || 0`)
  is modelled by `Option Rat` with `none` coerced to `0`.
* JS `String.prototype.toLowerCase` is modelled by mapping `Char.toLower`
  over the characters (ASCII case mapping, which is exact for the hex
  addresses the program works with).
* JS `Map` (insertion-ordered, first insertion wins for `set`-if-absent)
  and plain objects used as dictionaries are modelled by association
  lists keyed by `String`, preserving insertion order.  Prototype-chain
  quirks of JS property lookup are outside the model.
-/

/-- Model of JS `toLowerCase` on strings (ASCII case mapping). -/
def toLowerCase (s : String) : String := ⟨s.data.map Char.toLower⟩

/-- Pool token descriptor: `{ symbol }` as returned by the subgraph;
the symbol may be absent. -/
structure Token where
  symbol : Option String
deriving DecidableEq, Repr

/-- Pool descriptor `pool { feeTier token0 token1 }`; any part may be
absent in a response. -/
structure Pool where
  feeTier : Option Nat
  token0 : Option Token
  token1 : Option Token
deriving DecidableEq, Repr

/-- One raw swap row as returned by the three subgraph queries
(`id timestamp amountUSD origin sender recipient pool`). -/
structure SwapRecord where
  id : String
  timestamp : Nat
  amountUSD : Option Rat
  origin : Option String
  sender : Option String
  recipient : Option String
  pool : Option Pool
deriving DecidableEq, Repr

/-- JS `x || dflt` on an optional string: absent or empty is replaced by
the default (empty strings are falsy in JS). -/
def symOr (x : Option String) (dflt : String) : String :=
  match x with
  | none => dflt
  | some s => if s = "" then dflt else s

/-- `Number(s.amountUSD || 0) || 0` — the safe USD amount of a record. -/
def usdOf (s : SwapRecord) : Rat := s.amountUSD.getD 0

/-- The pair key of line 187:
`${s.pool?.token0?.symbol || 'T0'}/${s.pool?.token1?.symbol || 'T1'}`. -/
def pairKey (s : SwapRecord) : String :=
  symOr ((s.pool.bind Pool.token0).bind Token.symbol) "T0" ++ "/" ++
    symOr ((s.pool.bind Pool.token1).bind Token.symbol) "T1"

/-- Keep the first occurrence of every string, dropping later repeats —
the iteration order of a JS `Set` built from a list. -/
def firstDedupAux : List String → List String → List String
  | _, [] => []
  | seen, x :: rest =>
    if x ∈ seen then firstDedupAux seen rest
    else x :: firstDedupAux (x :: seen) rest

/-- `new Set([...])` over a string list. -/
def firstDedup (l : List String) : List String := firstDedupAux [] l

/-- Lines 198–200: the set of distinct lowercased addresses among
origin, sender and recipient (`(x || '').toLowerCase()`). -/
def involvedSet (s : SwapRecord) : List String :=
  firstDedup
    ([s.origin, s.sender, s.recipient].map (fun x => toLowerCase (x.getD "")))

/-- How many of the three role fields of a record, lowercased, equal a
given address (used to state the multiple-role claims). -/
def roleCount (s : SwapRecord) (a : String) : Nat :=
  ([s.origin, s.sender, s.recipient].map (fun x => toLowerCase (x.getD ""))).count a

/-- The metrics object initialised at lines 175–182.  `top_pairs` is the
insertion-ordered pair → USD accumulation map; after `aggregate`
finalizes it, it is the sorted, truncated top-5 list (the source then
renders each entry as a display string via `Intl`-based currency
formatting, which is presentation-only and not modelled: an entry here
keeps the pair key together with its USD value). -/
structure WalletMetrics where
  swaps_execution : Nat
  volume_execution_usd : Rat
  swaps_involved : Nat
  volume_involved_usd : Rat
  top_pairs : List (String × Rat)
deriving DecidableEq, Repr

/-- The zero-valued metrics every requested address starts from. -/
def zeroMetrics : WalletMetrics := ⟨0, 0, 0, 0, []⟩

/-- A mapping from address to metrics (the `per` object). -/
abbrev PerMap := List (String × WalletMetrics)

/-- Lines 173–183: one zero entry per requested address, in order. -/
def perInit (addresses : List String) : PerMap :=
  addresses.map (fun a => (a, zeroMetrics))

/-- Key lookup in an association list (JS object / `Map` access). -/
def lookupKey {β : Type} : List (String × β) → String → Option β
  | [], _ => none
  | p :: rest, a => if p.1 = a then some p.2 else lookupKey rest a

/-- `if (per[k]) { mutate per[k] }`: update the entry at a key if it is
present, leave the map unchanged otherwise. -/
def updateIfPresent {β : Type} (per : List (String × β)) (k : String)
    (f : β → β) : List (String × β) :=
  per.map (fun p => if p.1 = k then (p.1, f p.2) else p)

/-- Line 194: `tp.set(pair, (tp.get(pair) || 0) + usd)` on a JS `Map` —
update in place if the key exists, append otherwise. -/
def bumpPair (tp : List (String × Rat)) (pair : String) (usd : Rat) :
    List (String × Rat) :=
  if tp.any (fun p => p.1 = pair) then
    tp.map (fun p => if p.1 = pair then (p.1, p.2 + usd) else p)
  else tp ++ [(pair, usd)]

/-- The USD total accumulated for a pair (`tp.get(pair) || 0`). -/
def pairTotal (tp : List (String × Rat)) (pair : String) : Rat :=
  (lookupKey tp pair).getD 0

/-- Lines 185–207: process one distinct merged record — execution
metrics attributed only to the origin (lines 189–195), involvement
metrics to every distinct involved address (lines 197–206). -/
def processRecord (per : PerMap) (s : SwapRecord) : PerMap :=
  let usd := usdOf s
  let pair := pairKey s
  let o := toLowerCase (s.origin.getD "")
  let per1 := updateIfPresent per o (fun m =>
    { m with
      swaps_execution := m.swaps_execution + 1
      volume_execution_usd := m.volume_execution_usd + usd
      top_pairs := bumpPair m.top_pairs pair usd })
  (involvedSet s).foldl
    (fun acc addr => updateIfPresent acc addr (fun m =>
      { m with
        swaps_involved := m.swaps_involved + 1
        volume_involved_usd := m.volume_involved_usd + usd })) per1

/-- Lines 159–168: merge rows into a map keyed by record id, keeping the
first-seen copy of each id (`if (!idxById.has(s.id)) idxById.set(...)`;
later copies only extend the `_tags` set, which no metric reads, so tags
are not modelled).  `seen` is the set of ids already in the map. -/
def dedupByIdAux : List String → List SwapRecord → List SwapRecord
  | _, [] => []
  | seen, s :: rest =>
    if s.id ∈ seen then dedupByIdAux seen rest
    else s :: dedupByIdAux (s.id :: seen) rest

/-- Line 170: the distinct merged records `[...idxById.values()]`, in
first-occurrence order over origin ++ sender ++ recipient rows. -/
def mergeRecords (swapsOrigin swapsSender swapsRecipient : List SwapRecord) :
    List SwapRecord :=
  dedupByIdAux [] (swapsOrigin ++ swapsSender ++ swapsRecipient)

/-- Line 212: `.sort((x, y) => y[1] - x[1])` — stable sort by descending
USD value (JS `Array.prototype.sort` is stable). -/
def sortPairsDesc (l : List (String × Rat)) : List (String × Rat) :=
  List.insertionSort (fun x y => y.2 ≤ x.2) l

/-- Lines 210–215: finalize one address's metrics — sort the pair
accumulation descending by USD and keep at most the top 5. -/
def finalizeMetrics (m : WalletMetrics) : WalletMetrics :=
  { m with top_pairs := (sortPairsDesc m.top_pairs).take 5 }

/-- The raw (pre-finalization) per-address accumulation of `aggregate`. -/
def aggregatePer (addresses : List String)
    (swapsOrigin swapsSender swapsRecipient : List SwapRecord) : PerMap :=
  (mergeRecords swapsOrigin swapsSender swapsRecipient).foldl processRecord
    (perInit addresses)

/-- The value returned by `aggregate`: the per-address mapping and the
count of distinct records (`allCount`). -/
structure AggregateResult where
  per : List (String × WalletMetrics)
  allCount : Nat
deriving DecidableEq, Repr

/-- Lines 158–218: the full aggregator. -/
def aggregate (addresses : List String)
    (swapsOrigin swapsSender swapsRecipient : List SwapRecord) :
    AggregateResult :=
  let all := mergeRecords swapsOrigin swapsSender swapsRecipient
  let per := all.foldl processRecord (perInit addresses)
  ⟨per.map (fun p => (p.1, finalizeMetrics p.2)), all.length⟩

/-! ## Pagination (lines 123–136)

`client.request` for one query is modelled as serving pages of a fixed
backing list `src` of matching rows held by the source: the request with
variables `(first, skip)` returns `(src.drop skip).take first`, which is
the contract of the subgraph's `first`/`skip` pagination. -/

/-- `const first = 1000` — the fixed page size of `fetchAll`. -/
def pageSize : Nat := 1000

/-- The `while (true)` loop of `fetchAll`, instrumented with the number
of requests issued: request a page at `skip`; stop when it is short,
otherwise advance `skip` by the page size. -/
def fetchAllLoop {α : Type} (src : List α) (skip : Nat) : List α × Nat :=
  if h : ((src.drop skip).take pageSize).length < pageSize then
    ((src.drop skip).take pageSize, 1)
  else
    let rest := fetchAllLoop src (skip + pageSize)
    ((src.drop skip).take pageSize ++ rest.1, rest.2 + 1)
termination_by src.length - skip
decreasing_by
  simp only [List.length_take, List.length_drop, pageSize] at h ⊢
  omega

/-- Lines 123–136: the records accumulated by `fetchAll`. -/
def fetchAll {α : Type} (src : List α) : List α := (fetchAllLoop src 0).1

/-- The number of page requests `fetchAll` issues against the source. -/
def fetchAllRequests {α : Type} (src : List α) : Nat := (fetchAllLoop src 0).2

/-! ## Endpoint fallback (lines 138–155)

At this level each of the three paginated queries of one endpoint is an
opaque awaited call that either yields its full row list or throws; an
error is modelled by its message string. -/

deriving instance DecidableEq for Except

/-- One candidate endpoint: its URL and the outcome of each of the three
queries (by origin, by sender, by recipient) when run against it. -/
structure Endpoint where
  url : String
  qOrigin : Except String (List SwapRecord)
  qSender : Except String (List SwapRecord)
  qRecipient : Except String (List SwapRecord)
deriving DecidableEq, Repr

/-- The value returned on success: the three row lists and the winning
endpoint's URL (line 148). -/
structure FetchSuccess where
  swapsOrigin : List SwapRecord
  swapsSender : List SwapRecord
  swapsRecipient : List SwapRecord
  endpoint : String
deriving DecidableEq, Repr

/-- The error of the first query of an endpoint that fails, in the
execution order origin, sender, recipient — the exception the `try`
block at lines 142–152 catches (`none` if all three succeed). -/
def firstQueryErr (u : Endpoint) : Option String :=
  match u.qOrigin with
  | .error e => some e
  | .ok _ =>
    match u.qSender with
    | .error e => some e
    | .ok _ =>
      match u.qRecipient with
      | .error e => some e
      | .ok _ => none

/-- Whether an endpoint fails to complete its three queries. -/
def endpointFails (u : Endpoint) : Bool := (firstQueryErr u).isSome

/-- The row list of a successful query (`[]` for a failed one; only ever
read on endpoints all of whose queries succeeded). -/
def okVal (r : Except String (List SwapRecord)) : List SwapRecord :=
  match r with
  | .ok l => l
  | .error _ => []

/-- Line 154: the terminal error message, from the most recent
underlying error (`undefined` when no endpoint was ever tried). -/
def allFailedMsg (lastErr : Option String) : String :=
  "All subgraph endpoints failed. Last error: " ++ lastErr.getD "undefined"

/-- Lines 138–155: iterate the candidate endpoints in priority order,
remembering the most recent error; the first endpoint whose three
queries all succeed wins, and its results are returned at once. -/
def fetchWithFallbacks (urls : List Endpoint) (lastErr : Option String) :
    Except String FetchSuccess :=
  match urls with
  | [] => .error (allFailedMsg lastErr)
  | u :: rest =>
    match u.qOrigin with
    | .error e => fetchWithFallbacks rest (some e)
    | .ok swapsOrigin =>
      match u.qSender with
      | .error e => fetchWithFallbacks rest (some e)
      | .ok swapsSender =>
        match u.qRecipient with
        | .error e => fetchWithFallbacks rest (some e)
        | .ok swapsRecipient =>
          .ok ⟨swapsOrigin, swapsSender, swapsRecipient, u.url⟩

/-- The value `lastErr` holds after the loop has run through `urls`
starting from `init` (each failing endpoint overwrites it with the error
of its first failing query). -/
def lastErrAcc (urls : List Endpoint) (init : Option String) :
    Option String :=
  urls.foldl
    (fun acc u => match firstQueryErr u with
      | some e => some e
      | none => acc) init

/-! ## Analysis definitions

`processRecord` acts on every entry of the `per` map independently; the
following definitions name that per-entry action so the behaviour of
`aggregate` can be reduced to a fold over one address at a time. -/

/-- Whether a record's execution metrics go to address `a`
(line 191: `per[(s.origin || '').toLowerCase()]`). -/
def execHit (a : String) (s : SwapRecord) : Bool :=
  a = toLowerCase (s.origin.getD "")

/-- Whether a record counts toward address `a`'s involvement metrics
(lines 201–202). -/
def invHit (a : String) (s : SwapRecord) : Bool := a ∈ involvedSet s

/-- The action of one merged record on the metrics of one address. -/
def recordUpdate (s : SwapRecord) (a : String) (m : WalletMetrics) :
    WalletMetrics :=
  let usd := usdOf s
  let m1 :=
    if a = toLowerCase (s.origin.getD "") then
      { m with
        swaps_execution := m.swaps_execution + 1
        volume_execution_usd := m.volume_execution_usd + usd
        top_pairs := bumpPair m.top_pairs (pairKey s) usd }
    else m
  if a ∈ involvedSet s then
    { m1 with
      swaps_involved := m1.swaps_involved + 1
      volume_involved_usd := m1.volume_involved_usd + usd }
  else m1

/-- The metrics one address accumulates over a list of merged records. -/
def foldMetrics (a : String) (all : List SwapRecord) (m : WalletMetrics) :
    WalletMetrics :=
  all.foldl (fun acc s => recordUpdate s a acc) m

/-- The four numeric metric fields, used to state order-independence of
everything except the pair lists. -/
def numericPart (m : WalletMetrics) : Nat × Rat × Nat × Rat :=
  (m.swaps_execution, m.volume_execution_usd,
   m.swaps_involved, m.volume_involved_usd)

/-! ## Concrete instances used by witnesses and counterexamples -/

/-- A record appearing in several raw lists (dedup witness). -/
def wrec : SwapRecord :=
  ⟨"id1", 5, some 6000, some "0xabc", some "0xabc", some "0xdef", none⟩

/-- An endpoint whose first query fails. -/
def epBad1 : Endpoint := ⟨"u1", .error "boom1", .ok [], .ok []⟩

/-- An endpoint whose last query fails (partial results discarded). -/
def epBad2 : Endpoint := ⟨"u2", .ok [wrec], .ok [], .error "boom2"⟩

/-- An endpoint whose three queries all succeed. -/
def epGood : Endpoint := ⟨"u3", .ok [wrec], .ok [], .ok [wrec]⟩

/-- A record in which the requested address fills two roles. -/
def dualRoleRec : SwapRecord :=
  ⟨"id2", 6, some 4000, some "0xother", some "0xabc", some "0xabc", none⟩

/-- A record with a USD amount but an unrequested origin. -/
def strangerRec : SwapRecord :=
  ⟨"id3", 7, some 250, some "0xother", some "0xabc", some "0xdef", none⟩

/-- A swap record carrying a given id, USD amount and pair symbol
(origin fixed to `"a"`), used by the top-pair and ordering examples. -/
def pairRec (i : String) (usd : Rat) (sym : String) : SwapRecord :=
  ⟨i, 1, some usd, some "a", none, none, some ⟨none, some ⟨some sym⟩, some ⟨some "T"⟩⟩⟩

/-- A record with a negative USD amount (possible in raw subgraph data;
nothing in the code filters it). -/
def negRec : SwapRecord := ⟨"n1", 8, some (-5), some "a", some "b", none, none⟩

/-- A record whose addresses match `"0xAbc"` only case-insensitively. -/
def upperRec : SwapRecord :=
  ⟨"u1", 9, some 7, some "0xAbc", some "0xABC", none, none⟩

/-! ## Pagination: loop characterisation -/

/-- Fuel-indexed characterisation of the pagination loop: starting at
`skip` it returns the remaining records in order and issues
`(remaining / pageSize) + 1` requests. -/
theorem fetchAllLoop_eq {α : Type} (n : Nat) :
    ∀ (src : List α) (skip : Nat), src.length - skip ≤ n →
      fetchAllLoop src skip =
        (src.drop skip, (src.length - skip) / pageSize + 1) := by
  induction n with
  | zero =>
    intro src skip hn
    rw [fetchAllLoop]
    have hlen : ((src.drop skip).take pageSize).length < pageSize := by
      simp only [List.length_take, List.length_drop, pageSize]
      omega
    rw [dif_pos hlen]
    have hshort : src.length - skip = 0 := by omega
    have : (src.drop skip).length ≤ pageSize := by
      simp only [List.length_drop]
      omega
    rw [List.take_of_length_le this]
    simp [hshort]
  | succ n ih =>
    intro src skip hn
    rw [fetchAllLoop]
    by_cases h : ((src.drop skip).take pageSize).length < pageSize
    · rw [dif_pos h]
      simp only [List.length_take, List.length_drop, pageSize] at h
      have : (src.drop skip).length ≤ pageSize := by
        simp only [List.length_drop, pageSize]
        omega
      rw [List.take_of_length_le this]
      have : (src.length - skip) / pageSize = 0 := by
        apply Nat.div_eq_of_lt
        simp only [pageSize]
        omega
      simp [this]
    · rw [dif_neg h]
      simp only [List.length_take, List.length_drop, pageSize] at h
      have hge : pageSize ≤ src.length - skip := by
        simp only [pageSize]
        omega
      have hrec : src.length - (skip + pageSize) ≤ n := by
        simp only [pageSize] at hge ⊢
        omega
      rw [ih src (skip + pageSize) hrec]
      have hdrop : src.drop (skip + pageSize) =
          (src.drop skip).drop pageSize := by
        rw [List.drop_drop]
      show (List.take pageSize (List.drop skip src) ++
              List.drop (skip + pageSize) src,
            (src.length - (skip + pageSize)) / pageSize + 1 + 1) =
          (List.drop skip src, (src.length - skip) / pageSize + 1)
      rw [hdrop, List.take_append_drop, Prod.mk.injEq]
      refine ⟨rfl, ?_⟩
      simp only [pageSize] at hge ⊢
      omega

/-- C2 — Pagination completeness: `fetchAll` returns exactly the
source's records in their original order (hence no duplicates beyond
those of the source itself), and issues `⌈N / P⌉` page requests plus one
extra request when `N` is a multiple of `P` — in particular exactly one
request when `N = 0`, yielding `[]`.  (`(N + P - 1) / P` is `⌈N / P⌉`.) -/
theorem pagination_completeness {α : Type} (src : List α) :
    fetchAll src = src ∧
    fetchAllRequests src =
      (if pageSize ∣ src.length then src.length / pageSize + 1
       else (src.length + pageSize - 1) / pageSize) := by
  have h := fetchAllLoop_eq src.length src 0 (by omega)
  constructor
  · rw [fetchAll, h]
    simp
  · rw [fetchAllRequests, h]
    simp only [Nat.sub_zero, pageSize]
    split <;> omega

/-- C3 — Fallback correctness, in four parts following the loop at
lines 138–155: (1) a failing endpoint is skipped, its partial results
discarded and only its first error retained; (2) the first endpoint
whose three queries all succeed wins immediately — the result does not
depend on the remaining candidates; (3) if every candidate fails the
operation fails terminally with the accumulated last error in the
message; (4) that accumulated error is the error of the most recent
(last) failing endpoint. -/
theorem fallback_correctness :
    (∀ (u : Endpoint) (rest : List Endpoint) (init : Option String),
       endpointFails u = true →
       fetchWithFallbacks (u :: rest) init =
         fetchWithFallbacks rest (firstQueryErr u)) ∧
    (∀ (u : Endpoint) (rest : List Endpoint) (init : Option String),
       endpointFails u = false →
       fetchWithFallbacks (u :: rest) init =
         .ok ⟨okVal u.qOrigin, okVal u.qSender, okVal u.qRecipient, u.url⟩) ∧
    (∀ (urls : List Endpoint) (init : Option String),
       (∀ u ∈ urls, endpointFails u = true) →
       fetchWithFallbacks urls init =
         .error (allFailedMsg (lastErrAcc urls init))) ∧
    (∀ (urls : List Endpoint) (u : Endpoint) (init : Option String),
       endpointFails u = true →
       lastErrAcc (urls ++ [u]) init = firstQueryErr u) := by
  have hskip : ∀ (u : Endpoint) (rest : List Endpoint) (init : Option String),
      endpointFails u = true →
      fetchWithFallbacks (u :: rest) init =
        fetchWithFallbacks rest (firstQueryErr u) := by
    intro u rest init hf
    rcases u with ⟨url, qo, qs, qr⟩
    cases qo <;> cases qs <;> cases qr <;>
      simp_all [fetchWithFallbacks, firstQueryErr, endpointFails]
  refine ⟨hskip, ?_, ?_, ?_⟩
  · intro u rest init hf
    rcases u with ⟨url, qo, qs, qr⟩
    cases qo <;> cases qs <;> cases qr <;>
      simp_all [fetchWithFallbacks, firstQueryErr, endpointFails, okVal]
  · intro urls
    induction urls with
    | nil =>
      intro init _
      rfl
    | cons u rest ih =>
      intro init hall
      have hu := hall u (by simp)
      rw [hskip u rest init hu]
      have hrest := ih (firstQueryErr u) (fun v hv => hall v (by simp [hv]))
      rw [hrest]
      rcases Option.isSome_iff_exists.mp hu with ⟨e, he⟩
      simp [lastErrAcc, he]
  · intro urls u init hf
    rcases Option.isSome_iff_exists.mp hf with ⟨e, he⟩
    simp [lastErrAcc, List.foldl_append, he]

/-- Witness for C3: with `[epBad1, epBad2, epGood]` the fetcher returns
`epGood`'s three lists and URL; with every endpoint failing it returns
the terminal error carrying the last endpoint's error. -/
theorem fallback_correctness_witness :
    fetchWithFallbacks [epGood] (firstQueryErr epBad2) =
      .ok ⟨okVal epGood.qOrigin, okVal epGood.qSender,
           okVal epGood.qRecipient, epGood.url⟩ ∧
    fetchWithFallbacks [epBad1, epBad2] none =
      .error (allFailedMsg (lastErrAcc [epBad1, epBad2] none)) ∧
    lastErrAcc ([epBad1] ++ [epBad2]) none = firstQueryErr epBad2 := by
  refine ⟨?_, ?_, ?_⟩
  · exact fallback_correctness.2.1 epGood [] (firstQueryErr epBad2) (by decide)
  · exact fallback_correctness.2.2.1 [epBad1, epBad2] none (by decide)
  · exact fallback_correctness.2.2.2 [epBad1] epBad2 none (by decide)

/-! ## Association-list and dedup lemmas -/

/-- Lookup through a value-only map. -/
theorem lookupKey_map_val {β γ : Type} (l : List (String × β))
    (g : String → β → γ) (a : String) :
    lookupKey (l.map (fun p => (p.1, g p.1 p.2))) a =
      (lookupKey l a).map (g a) := by
  induction l with
  | nil => rfl
  | cons p rest ih =>
    by_cases h : p.1 = a
    · subst h
      simp [lookupKey]
    · simp [lookupKey, h, ih]

/-- Lookup in a map built from a key list. -/
theorem lookupKey_map_key {β : Type} (l : List String) (g : String → β)
    (a : String) :
    lookupKey (l.map (fun k => (k, g k))) a =
      if a ∈ l then some (g a) else none := by
  induction l with
  | nil => rfl
  | cons k rest ih =>
    by_cases h : k = a
    · subst h
      simp [lookupKey]
    · simp [lookupKey, h, ih, Ne.symm h]

/-- Membership in `firstDedupAux`. -/
theorem mem_firstDedupAux (l : List String) :
    ∀ (seen : List String) (x : String),
      x ∈ firstDedupAux seen l ↔ x ∈ l ∧ x ∉ seen := by
  induction l with
  | nil => simp [firstDedupAux]
  | cons y rest ih =>
    intro seen x
    by_cases hy : y ∈ seen
    · rw [firstDedupAux, if_pos hy, ih]
      constructor
      · rintro ⟨hx, hs⟩
        exact ⟨List.mem_cons_of_mem y hx, hs⟩
      · rintro ⟨hx, hs⟩
        rcases List.mem_cons.mp hx with rfl | hx
        · exact absurd hy hs
        · exact ⟨hx, hs⟩
    · rw [firstDedupAux, if_neg hy]
      constructor
      · intro hx
        rcases List.mem_cons.mp hx with rfl | hx
        · exact ⟨List.mem_cons_self x rest, hy⟩
        · rw [ih] at hx
          refine ⟨List.mem_cons_of_mem y hx.1, ?_⟩
          intro hs
          exact hx.2 (List.mem_cons_of_mem y hs)
      · rintro ⟨hx, hs⟩
        rcases List.mem_cons.mp hx with rfl | hx
        · exact List.mem_cons_self x _
        · by_cases hxy : x = y
          · subst hxy
            exact List.mem_cons_self x _
          · apply List.mem_cons_of_mem
            rw [ih]
            refine ⟨hx, ?_⟩
            intro hmem
            rcases List.mem_cons.mp hmem with h | h
            · exact hxy h
            · exact hs h

/-- `firstDedupAux` never repeats an element. -/
theorem nodup_firstDedupAux (l : List String) :
    ∀ seen : List String, (firstDedupAux seen l).Nodup := by
  induction l with
  | nil =>
    intro seen
    simp [firstDedupAux]
  | cons y rest ih =>
    intro seen
    by_cases hy : y ∈ seen
    · rw [firstDedupAux, if_pos hy]
      exact ih seen
    · rw [firstDedupAux, if_neg hy]
      refine List.Nodup.cons ?_ (ih (y :: seen))
      intro hmem
      exact ((mem_firstDedupAux rest (y :: seen) y).mp hmem).2
        (List.mem_cons_self y seen)

/-- Membership in a record's involved-address set. -/
theorem mem_involvedSet (s : SwapRecord) (x : String) :
    x ∈ involvedSet s ↔
      x ∈ [s.origin, s.sender, s.recipient].map
            (fun v => toLowerCase (v.getD "")) := by
  rw [involvedSet, firstDedup, mem_firstDedupAux]
  simp

/-- The involved-address set has no duplicates. -/
theorem nodup_involvedSet (s : SwapRecord) : (involvedSet s).Nodup :=
  nodup_firstDedupAux _ []

/-- The lowercased origin always belongs to the involved set. -/
theorem origin_mem_involvedSet (s : SwapRecord) :
    toLowerCase (s.origin.getD "") ∈ involvedSet s := by
  rw [mem_involvedSet]
  exact List.mem_map_of_mem _ (by simp)

/-- The merged record list only contains input records. -/
theorem dedupByIdAux_subset (l : List SwapRecord) :
    ∀ seen : List String, dedupByIdAux seen l ⊆ l := by
  induction l with
  | nil =>
    intro seen
    simp [dedupByIdAux]
  | cons s rest ih =>
    intro seen x hx
    by_cases hs : s.id ∈ seen
    · rw [dedupByIdAux, if_pos hs] at hx
      exact List.mem_cons_of_mem s (ih seen hx)
    · rw [dedupByIdAux, if_neg hs] at hx
      rcases List.mem_cons.mp hx with rfl | hx
      · exact List.mem_cons_self x rest
      · exact List.mem_cons_of_mem s (ih (s.id :: seen) hx)

/-- Ids of the merged list: no duplicates and none from `seen`. -/
theorem dedupByIdAux_ids (l : List SwapRecord) :
    ∀ seen : List String,
      ((dedupByIdAux seen l).map SwapRecord.id).Nodup ∧
        ∀ x ∈ dedupByIdAux seen l, x.id ∉ seen := by
  induction l with
  | nil =>
    intro seen
    simp [dedupByIdAux]
  | cons s rest ih =>
    intro seen
    by_cases hs : s.id ∈ seen
    · rw [dedupByIdAux, if_pos hs]
      exact ih seen
    · rw [dedupByIdAux, if_neg hs]
      rcases ih (s.id :: seen) with ⟨hnd, hseen⟩
      refine ⟨?_, ?_⟩
      · rw [List.map_cons, List.nodup_cons]
        refine ⟨?_, hnd⟩
        intro hmem
        rcases List.mem_map.mp hmem with ⟨y, hy, hid⟩
        exact hseen y hy (by rw [hid]; exact List.mem_cons_self _ _)
      · intro x hx
        rcases List.mem_cons.mp hx with rfl | hx
        · exact hs
        · intro hsx
          exact hseen x hx (List.mem_cons_of_mem _ hsx)

/-- Deduplication is the identity on a list whose ids are fresh and
pairwise distinct. -/
theorem dedupByIdAux_of_nodup (l : List SwapRecord) :
    ∀ seen : List String, (l.map SwapRecord.id).Nodup →
      (∀ x ∈ l, x.id ∉ seen) → dedupByIdAux seen l = l := by
  induction l with
  | nil =>
    intro seen _ _
    rfl
  | cons s rest ih =>
    intro seen hnd hfresh
    rw [List.map_cons, List.nodup_cons] at hnd
    rw [dedupByIdAux, if_neg (hfresh s (List.mem_cons_self s rest))]
    congr 1
    apply ih _ hnd.2
    intro x hx hmem
    rcases List.mem_cons.mp hmem with h | h
    · exact hnd.1 (h ▸ List.mem_map_of_mem SwapRecord.id hx)
    · exact hfresh x (List.mem_cons_of_mem s hx) h

/-- Merging an already-merged list changes nothing. -/
theorem mergeRecords_idem (o s r : List SwapRecord) :
    mergeRecords (mergeRecords o s r) [] [] = mergeRecords o s r := by
  rw [mergeRecords, List.append_nil, List.append_nil]
  exact dedupByIdAux_of_nodup _ [] (dedupByIdAux_ids _ []).1 (by simp)

/-! ## `processRecord` acts pointwise on the per-address map -/

/-- A fold of conditional updates over a duplicate-free key list is one
simultaneous map: each entry is updated once iff its key occurs. -/
theorem foldl_updateIfPresent {β : Type} (l : List String) (f : β → β) :
    ∀ per : List (String × β), l.Nodup →
      l.foldl (fun acc k => updateIfPresent acc k f) per =
        per.map (fun p => if p.1 ∈ l then (p.1, f p.2) else p) := by
  induction l with
  | nil =>
    intro per _
    simp
  | cons k rest ih =>
    intro per hnd
    rw [List.nodup_cons] at hnd
    rw [List.foldl_cons, ih _ hnd.2, updateIfPresent, List.map_map]
    apply List.map_congr_left
    intro p _
    by_cases hpk : p.1 = k
    · simp [Function.comp, hpk, hnd.1]
    · by_cases hprest : p.1 ∈ rest <;>
        simp [Function.comp, hpk, hprest]

/-- One record updates every entry of the map independently. -/
theorem processRecord_eq_map (per : PerMap) (s : SwapRecord) :
    processRecord per s =
      per.map (fun p => (p.1, recordUpdate s p.1 p.2)) := by
  rw [processRecord]
  rw [foldl_updateIfPresent _ _ _ (nodup_involvedSet s)]
  rw [updateIfPresent, List.map_map]
  apply List.map_congr_left
  intro p _
  simp only [Function.comp, recordUpdate]
  by_cases ho : p.1 = toLowerCase (s.origin.getD "")
  · by_cases hi : p.1 ∈ involvedSet s
    · have hi2 : toLowerCase (s.origin.getD "") ∈ involvedSet s := ho ▸ hi
      simp [ho, hi, hi2]
    · have hi2 : toLowerCase (s.origin.getD "") ∉ involvedSet s := ho ▸ hi
      simp [ho, hi, hi2]
  · by_cases hi : p.1 ∈ involvedSet s <;> simp [ho, hi]

/-- Folding records through the per-address map keeps every key and
folds each address's metrics independently. -/
theorem foldl_processRecord (all : List SwapRecord) :
    ∀ per : PerMap,
      all.foldl processRecord per =
        per.map (fun p => (p.1, foldMetrics p.1 all p.2)) := by
  induction all with
  | nil =>
    intro per
    simp [foldMetrics]
  | cons s rest ih =>
    intro per
    rw [List.foldl_cons, ih, processRecord_eq_map, List.map_map]
    apply List.map_congr_left
    intro p _
    simp [Function.comp, foldMetrics]

/-- The per-address mapping of `aggregate`, in closed form: one entry
per requested address, in order, holding that address's finalized fold
over the merged records. -/
theorem aggregate_per_eq (addrs : List String)
    (o s r : List SwapRecord) :
    (aggregate addrs o s r).per =
      addrs.map (fun a =>
        (a, finalizeMetrics
              (foldMetrics a (mergeRecords o s r) zeroMetrics))) := by
  show ((mergeRecords o s r).foldl processRecord (perInit addrs)).map
      (fun p => (p.1, finalizeMetrics p.2)) = _
  rw [foldl_processRecord, perInit, List.map_map, List.map_map]
  apply List.map_congr_left
  intro a _
  simp [Function.comp]

/-- Lookup in `aggregate`'s result. -/
theorem aggregate_lookup (addrs : List String) (o s r : List SwapRecord)
    (a : String) :
    lookupKey (aggregate addrs o s r).per a =
      if a ∈ addrs then
        some (finalizeMetrics
                (foldMetrics a (mergeRecords o s r) zeroMetrics))
      else none := by
  rw [aggregate_per_eq, lookupKey_map_key]

/-! ## Field-level behaviour of `recordUpdate` and `foldMetrics` -/

/-- Execution count after one record. -/
theorem recordUpdate_exec_count (s : SwapRecord) (a : String)
    (m : WalletMetrics) :
    (recordUpdate s a m).swaps_execution =
      m.swaps_execution + (if execHit a s then 1 else 0) := by
  rw [recordUpdate, execHit]
  by_cases ho : a = toLowerCase (s.origin.getD "")
  · have hi : a ∈ involvedSet s := ho.symm ▸ origin_mem_involvedSet s
    simp [ho, hi, origin_mem_involvedSet s]
  · by_cases hi : a ∈ involvedSet s <;> simp [ho, hi]

/-- Execution volume after one record. -/
theorem recordUpdate_exec_vol (s : SwapRecord) (a : String)
    (m : WalletMetrics) :
    (recordUpdate s a m).volume_execution_usd =
      m.volume_execution_usd + (if execHit a s then usdOf s else 0) := by
  rw [recordUpdate, execHit]
  by_cases ho : a = toLowerCase (s.origin.getD "")
  · have hi : a ∈ involvedSet s := ho.symm ▸ origin_mem_involvedSet s
    simp [ho, hi, origin_mem_involvedSet s]
  · by_cases hi : a ∈ involvedSet s <;> simp [ho, hi]

/-- Involved count after one record. -/
theorem recordUpdate_inv_count (s : SwapRecord) (a : String)
    (m : WalletMetrics) :
    (recordUpdate s a m).swaps_involved =
      m.swaps_involved + (if invHit a s then 1 else 0) := by
  rw [recordUpdate, invHit]
  by_cases ho : a = toLowerCase (s.origin.getD "")
  · have hi : a ∈ involvedSet s := ho.symm ▸ origin_mem_involvedSet s
    simp [ho, hi, origin_mem_involvedSet s]
  · by_cases hi : a ∈ involvedSet s <;> simp [ho, hi]

/-- Involved volume after one record. -/
theorem recordUpdate_inv_vol (s : SwapRecord) (a : String)
    (m : WalletMetrics) :
    (recordUpdate s a m).volume_involved_usd =
      m.volume_involved_usd + (if invHit a s then usdOf s else 0) := by
  rw [recordUpdate, invHit]
  by_cases ho : a = toLowerCase (s.origin.getD "")
  · have hi : a ∈ involvedSet s := ho.symm ▸ origin_mem_involvedSet s
    simp [ho, hi, origin_mem_involvedSet s]
  · by_cases hi : a ∈ involvedSet s <;> simp [ho, hi]

/-- Pair accumulation after one record. -/
theorem recordUpdate_top_pairs (s : SwapRecord) (a : String)
    (m : WalletMetrics) :
    (recordUpdate s a m).top_pairs =
      (if execHit a s then bumpPair m.top_pairs (pairKey s) (usdOf s)
       else m.top_pairs) := by
  rw [recordUpdate, execHit]
  by_cases ho : a = toLowerCase (s.origin.getD "")
  · have hi : a ∈ involvedSet s := ho.symm ▸ origin_mem_involvedSet s
    simp [ho, hi, origin_mem_involvedSet s]
  · by_cases hi : a ∈ involvedSet s <;> simp [ho, hi]

/-- An execution hit implies an involvement hit. -/
theorem execHit_invHit (a : String) (s : SwapRecord) :
    execHit a s = true → invHit a s = true := by
  intro h
  rw [execHit, decide_eq_true_eq] at h
  rw [invHit, decide_eq_true_eq]
  exact h ▸ origin_mem_involvedSet s

/-- Closed form: execution count is the number of merged records whose
lowercased origin is the address. -/
theorem foldMetrics_exec_count (a : String) (all : List SwapRecord) :
    ∀ m : WalletMetrics,
      (foldMetrics a all m).swaps_execution =
        m.swaps_execution + all.countP (execHit a) := by
  induction all with
  | nil =>
    intro m
    simp [foldMetrics]
  | cons s rest ih =>
    intro m
    rw [foldMetrics, List.foldl_cons]
    rw [show List.foldl (fun acc x => recordUpdate x a acc)
          (recordUpdate s a m) rest =
        foldMetrics a rest (recordUpdate s a m) from rfl]
    rw [ih, recordUpdate_exec_count, List.countP_cons]
    by_cases h : execHit a s <;> simp [h] <;> omega

/-- Closed form: execution volume is the USD sum over the records whose
lowercased origin is the address. -/
theorem foldMetrics_exec_vol (a : String) (all : List SwapRecord) :
    ∀ m : WalletMetrics,
      (foldMetrics a all m).volume_execution_usd =
        m.volume_execution_usd +
          ((all.filter (execHit a)).map usdOf).sum := by
  induction all with
  | nil =>
    intro m
    simp [foldMetrics]
  | cons s rest ih =>
    intro m
    rw [foldMetrics, List.foldl_cons]
    rw [show List.foldl (fun acc x => recordUpdate x a acc)
          (recordUpdate s a m) rest =
        foldMetrics a rest (recordUpdate s a m) from rfl]
    rw [ih, recordUpdate_exec_vol, List.filter_cons]
    by_cases h : execHit a s <;> simp [h] <;> ring

/-- Closed form: involved count is the number of merged records whose
involved-address set contains the address. -/
theorem foldMetrics_inv_count (a : String) (all : List SwapRecord) :
    ∀ m : WalletMetrics,
      (foldMetrics a all m).swaps_involved =
        m.swaps_involved + all.countP (invHit a) := by
  induction all with
  | nil =>
    intro m
    simp [foldMetrics]
  | cons s rest ih =>
    intro m
    rw [foldMetrics, List.foldl_cons]
    rw [show List.foldl (fun acc x => recordUpdate x a acc)
          (recordUpdate s a m) rest =
        foldMetrics a rest (recordUpdate s a m) from rfl]
    rw [ih, recordUpdate_inv_count, List.countP_cons]
    by_cases h : invHit a s <;> simp [h] <;> omega

/-- Closed form: involved volume is the USD sum over the records whose
involved-address set contains the address. -/
theorem foldMetrics_inv_vol (a : String) (all : List SwapRecord) :
    ∀ m : WalletMetrics,
      (foldMetrics a all m).volume_involved_usd =
        m.volume_involved_usd +
          ((all.filter (invHit a)).map usdOf).sum := by
  induction all with
  | nil =>
    intro m
    simp [foldMetrics]
  | cons s rest ih =>
    intro m
    rw [foldMetrics, List.foldl_cons]
    rw [show List.foldl (fun acc x => recordUpdate x a acc)
          (recordUpdate s a m) rest =
        foldMetrics a rest (recordUpdate s a m) from rfl]
    rw [ih, recordUpdate_inv_vol, List.filter_cons]
    by_cases h : invHit a s <;> simp [h] <;> ring

/-- Lookup after an in-place bump of one key. -/
theorem lookupKey_bump_map (pair q : String) (usd : Rat) :
    ∀ tp : List (String × Rat),
      lookupKey (tp.map (fun p => if p.1 = pair then (p.1, p.2 + usd) else p)) q =
        (if q = pair then (lookupKey tp q).map (fun v => v + usd)
         else lookupKey tp q) := by
  intro tp
  induction tp with
  | nil => by_cases hq : q = pair <;> simp [lookupKey, hq]
  | cons p rest ih =>
    by_cases hp : p.1 = pair
    · by_cases hq : p.1 = q
      · have h2 : q = pair := hq ▸ hp
        simp [lookupKey, hp, hq, h2]
      · have h2 : ¬ q = pair := fun h => hq (hp.trans h.symm)
        have h3 : ¬ pair = q := fun h => h2 h.symm
        simp [lookupKey, hp, hq, h2, h3, ih]
    · by_cases hq : p.1 = q
      · have h2 : ¬ q = pair := fun h => hp (hq.trans h)
        simp [lookupKey, hp, hq, h2]
      · simp [lookupKey, hp, hq, ih]

/-- Lookup after appending a fresh entry. -/
theorem lookupKey_append_single (pair q : String) (usd : Rat) :
    ∀ tp : List (String × Rat),
      lookupKey (tp ++ [(pair, usd)]) q =
        (match lookupKey tp q with
         | some v => some v
         | none => if pair = q then some usd else none) := by
  intro tp
  induction tp with
  | nil => simp [lookupKey]
  | cons p rest ih =>
    by_cases hq : p.1 = q
    · simp [lookupKey, hq]
    · simp only [List.cons_append, lookupKey, if_neg hq, List.append_eq, ih]

/-- A key passes `any` exactly when lookup finds it. -/
theorem any_key_iff_lookup (k : String) :
    ∀ tp : List (String × Rat),
      (tp.any (fun p => p.1 = k)) = true ↔ (lookupKey tp k).isSome := by
  intro tp
  induction tp with
  | nil => simp [lookupKey]
  | cons p rest ih =>
    by_cases hp : p.1 = k
    · simp [lookupKey, hp]
    · simp [lookupKey, hp, ih]

/-- `bumpPair` changes the accumulated total of the bumped pair by the
USD amount and leaves every other pair untouched. -/
theorem pairTotal_bumpPair (tp : List (String × Rat)) (pair q : String)
    (usd : Rat) :
    pairTotal (bumpPair tp pair usd) q =
      pairTotal tp q + (if q = pair then usd else 0) := by
  rw [bumpPair]
  by_cases hmem : tp.any (fun p => p.1 = pair)
  · rw [if_pos hmem, pairTotal, lookupKey_bump_map]
    by_cases hq : q = pair
    · subst hq
      rcases Option.isSome_iff_exists.mp ((any_key_iff_lookup q tp).mp hmem)
        with ⟨v, hv⟩
      simp [pairTotal, hv]
    · simp [pairTotal, hq]
  · rw [if_neg hmem, pairTotal, lookupKey_append_single]
    have hnone : ¬ (lookupKey tp pair).isSome := fun h =>
      hmem ((any_key_iff_lookup pair tp).mpr h)
    by_cases hq : q = pair
    · subst hq
      rw [Option.not_isSome_iff_eq_none] at hnone
      simp [pairTotal, hnone]
    · have hqp : ¬ pair = q := fun h => hq h.symm
      rcases hcase : lookupKey tp q with _ | v
      · simp [pairTotal, hcase, hq, hqp]
      · simp [pairTotal, hcase, hq]

/-- Closed form: the accumulated USD total of a pair is the sum over the
records executed by the address that traded that pair. -/
theorem foldMetrics_pairTotal (a : String) (q : String)
    (all : List SwapRecord) :
    ∀ m : WalletMetrics,
      pairTotal (foldMetrics a all m).top_pairs q =
        pairTotal m.top_pairs q +
          ((all.filter (fun s => execHit a s && (q = pairKey s))).map
            usdOf).sum := by
  induction all with
  | nil =>
    intro m
    simp [foldMetrics]
  | cons s rest ih =>
    intro m
    rw [foldMetrics, List.foldl_cons]
    rw [show List.foldl (fun acc x => recordUpdate x a acc)
          (recordUpdate s a m) rest =
        foldMetrics a rest (recordUpdate s a m) from rfl]
    rw [ih, recordUpdate_top_pairs, List.filter_cons]
    by_cases he : execHit a s
    · rw [if_pos he, pairTotal_bumpPair]
      by_cases hq : q = pairKey s <;> simp [he, hq] <;> ring
    · rw [if_neg he]
      simp [he]

/-- Finalization only reshapes `top_pairs`; the numeric fields survive. -/
theorem finalizeMetrics_numeric (m : WalletMetrics) :
    numericPart (finalizeMetrics m) = numericPart m := rfl

/-- Finalizing the zero metrics gives back the zero metrics. -/
theorem finalizeMetrics_zero : finalizeMetrics zeroMetrics = zeroMetrics := rfl

/-- A record that does not involve an address leaves its metrics alone. -/
theorem recordUpdate_no_hit (s : SwapRecord) (a : String)
    (m : WalletMetrics) (h : invHit a s = false) :
    recordUpdate s a m = m := by
  have hinv : a ∉ involvedSet s := by
    rw [invHit, decide_eq_false_iff_not] at h
    exact h
  have ho : ¬ a = toLowerCase (s.origin.getD "") := by
    intro heq
    exact hinv (heq.symm ▸ origin_mem_involvedSet s)
  rw [recordUpdate]
  simp [ho, hinv]

/-- An address involved in no record keeps the metrics it started with. -/
theorem foldMetrics_no_hit (a : String) (all : List SwapRecord)
    (m : WalletMetrics) (h : ∀ x ∈ all, invHit a x = false) :
    foldMetrics a all m = m := by
  induction all generalizing m with
  | nil => rfl
  | cons s rest ih =>
    rw [foldMetrics, List.foldl_cons,
      recordUpdate_no_hit s a m (h s (List.mem_cons_self s rest))]
    exact ih m (fun x hx => h x (List.mem_cons_of_mem s hx))

/-- Sums over a finer filter are bounded by sums over a coarser one when
the summand is non-negative. -/
theorem sum_filter_mono {α : Type} (l : List α) (p q : α → Bool)
    (f : α → Rat) (hpq : ∀ x ∈ l, p x = true → q x = true)
    (hf : ∀ x ∈ l, 0 ≤ f x) :
    ((l.filter p).map f).sum ≤ ((l.filter q).map f).sum := by
  induction l with
  | nil => simp
  | cons x rest ih =>
    have ih2 := ih (fun y hy => hpq y (List.mem_cons_of_mem x hy))
      (fun y hy => hf y (List.mem_cons_of_mem x hy))
    rw [List.filter_cons, List.filter_cons]
    by_cases hp : p x
    · rw [if_pos hp, if_pos (hpq x (List.mem_cons_self x rest) hp)]
      simp only [List.map_cons, List.sum_cons]
      exact add_le_add_left ih2 (f x)
    · rw [if_neg hp]
      by_cases hq : q x
      · rw [if_pos hq]
        simp only [List.map_cons, List.sum_cons]
        calc ((rest.filter p).map f).sum ≤ ((rest.filter q).map f).sum := ih2
          _ ≤ f x + ((rest.filter q).map f).sum := by
              have := hf x (List.mem_cons_self x rest)
              linarith
      · rw [if_neg hq]
        exact ih2

/-- `Char.toLower` never produces an ASCII uppercase letter. -/
theorem char_toLower_not_upper (c : Char) :
    ¬ (65 ≤ (Char.toLower c).toNat ∧ (Char.toLower c).toNat ≤ 90) := by
  by_cases h : 65 ≤ c.toNat ∧ c.toNat ≤ 90
  · have hv : (c.toNat + 32).isValidChar := Or.inl (by omega)
    have : (Char.toLower c).toNat = c.toNat + 32 := by
      simp only [Char.toLower, ge_iff_le]
      rw [if_pos ⟨h.1, h.2⟩, Char.ofNat, dif_pos hv]
      rfl
    omega
  · have : Char.toLower c = c := by
      simp only [Char.toLower, ge_iff_le]
      rw [if_neg]
      omega
    rw [this]
    omega

/-- No character of a lowercased string is an ASCII uppercase letter. -/
theorem toLowerCase_no_upper (v : String) (c : Char)
    (hc : c ∈ (toLowerCase v).data) :
    ¬ (65 ≤ c.toNat ∧ c.toNat ≤ 90) := by
  rw [toLowerCase] at hc
  rcases List.mem_map.mp hc with ⟨d, _, hd⟩
  exact hd ▸ char_toLower_not_upper d

/-- A string containing an ASCII uppercase letter is not the lowercasing
of anything. -/
theorem upper_ne_toLowerCase (a : String)
    (hup : ∃ c ∈ a.data, 65 ≤ c.toNat ∧ c.toNat ≤ 90) (v : String) :
    a ≠ toLowerCase v := by
  rcases hup with ⟨c, hc, hrange⟩
  intro h
  exact toLowerCase_no_upper v c (h ▸ hc) hrange

/-- An address with an uppercase letter is involved in no record. -/
theorem invHit_of_upper (a : String)
    (hup : ∃ c ∈ a.data, 65 ≤ c.toNat ∧ c.toNat ≤ 90) (s : SwapRecord) :
    invHit a s = false := by
  rw [invHit, decide_eq_false_iff_not]
  intro hmem
  rcases List.mem_map.mp ((mem_involvedSet s a).mp hmem) with ⟨v, _, hv⟩
  exact upper_ne_toLowerCase a hup (v.getD "") hv.symm

/-- C1 — Dedup idempotence: `aggregate` reads its three raw lists only
through the id-deduplicated merge, so feeding it the merged list alone
reproduces its output exactly; and a record appearing in any non-empty
subset of the three raw lists merges to a single copy, hence contributes
to every metrics field of every address at most once — exactly as often
as a record appearing in a single list. -/
theorem dedup_idempotence :
    (∀ (addrs : List String) (o s r : List SwapRecord),
       aggregate addrs o s r = aggregate addrs (mergeRecords o s r) [] []) ∧
    (∀ (x : SwapRecord) (b1 b2 b3 : Bool), (b1 || b2 || b3) = true →
       mergeRecords (cond b1 [x] []) (cond b2 [x] []) (cond b3 [x] []) =
         [x]) := by
  constructor
  · intro addrs o s r
    show (⟨((mergeRecords o s r).foldl processRecord (perInit addrs)).map
            (fun p => (p.1, finalizeMetrics p.2)),
          (mergeRecords o s r).length⟩ : AggregateResult) =
        ⟨((mergeRecords (mergeRecords o s r) [] []).foldl processRecord
            (perInit addrs)).map (fun p => (p.1, finalizeMetrics p.2)),
          (mergeRecords (mergeRecords o s r) [] []).length⟩
    rw [mergeRecords_idem]
  · intro x b1 b2 b3 hb
    rcases b1 <;> rcases b2 <;> rcases b3 <;>
      simp_all [mergeRecords, dedupByIdAux]

/-- Witness for C1: the record `wrec`, present in all three raw lists,
merges to one copy, and aggregation over the three copies equals
aggregation over the single merged copy. -/
theorem dedup_idempotence_witness :
    mergeRecords [wrec] [wrec] [wrec] = [wrec] ∧
    aggregate ["0xabc"] [wrec] [wrec] [wrec] =
      aggregate ["0xabc"] (mergeRecords [wrec] [wrec] [wrec]) [] [] := by
  constructor
  · exact dedup_idempotence.2 wrec true true true (by decide)
  · exact dedup_idempotence.1 ["0xabc"] [wrec] [wrec] [wrec]

/-- C9 — The key list of `aggregate`'s mapping is exactly the requested
address list: every requested address gets an entry (still zero-valued
when no record involves it), and no record can create an entry for an
address that was not requested. -/
theorem aggregate_key_set :
    (∀ (addrs : List String) (o s r : List SwapRecord),
       (aggregate addrs o s r).per.map Prod.fst = addrs) ∧
    (∀ (addrs : List String) (o s r : List SwapRecord) (a : String),
       a ∈ addrs →
       (∀ x ∈ mergeRecords o s r, invHit a x = false) →
       lookupKey (aggregate addrs o s r).per a = some zeroMetrics) := by
  constructor
  · intro addrs o s r
    rw [aggregate_per_eq, List.map_map]
    exact List.map_id addrs
  · intro addrs o s r a ha hnone
    rw [aggregate_lookup, if_pos ha,
      foldMetrics_no_hit a _ zeroMetrics hnone, finalizeMetrics_zero]

/-- Witness for C9: a requested address matching no record keeps the
zero entry, and the key list equals the address list. -/
theorem aggregate_key_set_witness :
    (aggregate ["0xzzz"] [wrec] [] []).per.map Prod.fst = ["0xzzz"] ∧
    lookupKey (aggregate ["0xzzz"] [wrec] [] []).per "0xzzz" =
      some zeroMetrics := by
  constructor
  · exact aggregate_key_set.1 ["0xzzz"] [wrec] [] []
  · exact aggregate_key_set.2 ["0xzzz"] [wrec] [] [] "0xzzz" (by decide)
      (by decide)

/-- C10 — `aggregate` lowercases record address fields but never the
requested addresses: a requested address containing an ASCII uppercase
letter can match no record and ends with all-zero metrics and an empty
top-pairs list, even when records match it case-insensitively. -/
theorem requested_case_sensitivity (addrs : List String)
    (o s r : List SwapRecord) (a : String) (ha : a ∈ addrs)
    (hup : ∃ c ∈ a.data, 65 ≤ c.toNat ∧ c.toNat ≤ 90) :
    lookupKey (aggregate addrs o s r).per a = some zeroMetrics := by
  rw [aggregate_lookup, if_pos ha,
    foldMetrics_no_hit a _ zeroMetrics
      (fun x _ => invHit_of_upper a hup x),
    finalizeMetrics_zero]

/-- Witness for C10: `"0xAbc"` is requested and `upperRec` matches it
case-insensitively in both origin and sender, yet its metrics stay
zero. -/
theorem requested_case_sensitivity_witness :
    lookupKey (aggregate ["0xAbc"] [upperRec] [] []).per "0xAbc" =
      some zeroMetrics :=
  requested_case_sensitivity ["0xAbc"] [upperRec] [] [] "0xAbc"
    (by decide) (by decide)

/-- C4 — Involvement non-duplication: when a requested address occupies
two or three of the roles origin/sender/recipient of a record
(lowercased), processing that record inside `aggregate` increments its
involved swap count by exactly 1 — not 2 or 3 — and adds the record's
USD amount to its involved volume exactly once. -/
theorem involvement_non_duplication (per : PerMap) (x : SwapRecord)
    (a : String) (m : WalletMetrics)
    (hm : lookupKey per a = some m) (h2 : 2 ≤ roleCount x a) :
    ∃ m2, lookupKey (processRecord per x) a = some m2 ∧
      m2.swaps_involved = m.swaps_involved + 1 ∧
      m2.volume_involved_usd = m.volume_involved_usd + usdOf x := by
  have hmem : a ∈ involvedSet x := by
    rw [mem_involvedSet]
    have hpos : 0 < roleCount x a := by omega
    rw [roleCount] at hpos
    exact List.count_pos_iff.mp hpos
  have hinv : invHit a x = true := by
    rw [invHit, decide_eq_true_eq]
    exact hmem
  refine ⟨recordUpdate x a m, ?_, ?_, ?_⟩
  · rw [processRecord_eq_map,
      lookupKey_map_val per (fun k v => recordUpdate x k v) a, hm]
    rfl
  · rw [recordUpdate_inv_count, hinv]
    simp
  · rw [recordUpdate_inv_vol, hinv]
    simp

/-- Witness for C4: `dualRoleRec` names `"0xabc"` as both sender and
recipient; its involved count rises by exactly 1 and its involved
volume by the record's USD amount. -/
theorem involvement_non_duplication_witness :
    ∃ m2, lookupKey (processRecord [("0xabc", zeroMetrics)] dualRoleRec)
        "0xabc" = some m2 ∧
      m2.swaps_involved = zeroMetrics.swaps_involved + 1 ∧
      m2.volume_involved_usd =
        zeroMetrics.volume_involved_usd + usdOf dualRoleRec :=
  involvement_non_duplication [("0xabc", zeroMetrics)] dualRoleRec "0xabc"
    zeroMetrics (by decide) (by decide)

/-- C5 — Execution exclusivity: a record whose lowercased origin is not
a requested address (its entry is absent from the per-address map)
leaves every address's execution swap count, execution volume and pair
accumulation unchanged, even when that address is the record's sender or
recipient. -/
theorem execution_exclusivity (per : PerMap) (x : SwapRecord)
    (a : String) (m : WalletMetrics)
    (horig : lookupKey per (toLowerCase (x.origin.getD "")) = none)
    (hm : lookupKey per a = some m) :
    ∃ m2, lookupKey (processRecord per x) a = some m2 ∧
      m2.swaps_execution = m.swaps_execution ∧
      m2.volume_execution_usd = m.volume_execution_usd ∧
      m2.top_pairs = m.top_pairs := by
  have hne : execHit a x = false := by
    rw [execHit, decide_eq_false_iff_not]
    intro heq
    rw [heq] at hm
    rw [horig] at hm
    exact Option.noConfusion hm
  refine ⟨recordUpdate x a m, ?_, ?_, ?_, ?_⟩
  · rw [processRecord_eq_map,
      lookupKey_map_val per (fun k v => recordUpdate x k v) a, hm]
    rfl
  · rw [recordUpdate_exec_count, hne]
    simp
  · rw [recordUpdate_exec_vol, hne]
    simp
  · rw [recordUpdate_top_pairs, hne]
    simp

/-- Witness for C5: `strangerRec` originates from `"0xother"`, which is
not requested, while `"0xabc"` is its sender; `"0xabc"`'s execution
metrics and pair accumulation survive unchanged. -/
theorem execution_exclusivity_witness :
    ∃ m2, lookupKey (processRecord [("0xabc", zeroMetrics)] strangerRec)
        "0xabc" = some m2 ∧
      m2.swaps_execution = zeroMetrics.swaps_execution ∧
      m2.volume_execution_usd = zeroMetrics.volume_execution_usd ∧
      m2.top_pairs = zeroMetrics.top_pairs :=
  execution_exclusivity [("0xabc", zeroMetrics)] strangerRec "0xabc"
    zeroMetrics (by decide) (by decide)

/-- C6 — Top-pair selection: every finalized metrics entry produced by
`aggregate` carries at most 5 pairs, in descending order of accumulated
USD; and on per-pair volumes A:500, B:300, C:200, D:100, E:50, F:10 the
output is exactly A, B, C, D, E in that order, with F excluded. -/
theorem top_pair_selection :
    (∀ (addrs : List String) (o s r : List SwapRecord) (a : String)
       (m : WalletMetrics),
       lookupKey (aggregate addrs o s r).per a = some m →
       m.top_pairs.length ≤ 5 ∧
       m.top_pairs.Pairwise (fun x y => y.2 ≤ x.2)) ∧
    (lookupKey (aggregate ["a"]
        [pairRec "1" 500 "A", pairRec "2" 300 "B", pairRec "3" 200 "C",
         pairRec "4" 100 "D", pairRec "5" 50 "E", pairRec "6" 10 "F"]
        [] []).per "a").map (fun m => m.top_pairs) =
      some [("A/T", 500), ("B/T", 300), ("C/T", 200), ("D/T", 100),
            ("E/T", 50)] := by
  constructor
  · intro addrs o s r a m hm
    rw [aggregate_lookup] at hm
    by_cases ha : a ∈ addrs
    · rw [if_pos ha] at hm
      have hx := Option.some.inj hm
      subst hx
      constructor
      · exact List.length_take_le 5 _
      · apply List.Pairwise.sublist (List.take_sublist 5 _)
        have hs := @List.sorted_insertionSort (String × Rat)
          (fun x y => y.2 ≤ x.2) (fun x y => Rat.instDecidableLe y.2 x.2)
          ⟨fun x y => le_total y.2 x.2⟩
          ⟨fun x y z hxy hyz => le_trans hyz hxy⟩
          (foldMetrics a (mergeRecords o s r) zeroMetrics).top_pairs
        exact hs
    · rw [if_neg ha] at hm
      exact Option.noConfusion hm
  · decide

/-- Witness for C6: instantiating the universal part on the concrete
A–F aggregation. -/
theorem top_pair_selection_witness :
    (finalizeMetrics
        (foldMetrics "a"
          (mergeRecords
            [pairRec "1" 500 "A", pairRec "2" 300 "B", pairRec "3" 200 "C",
             pairRec "4" 100 "D", pairRec "5" 50 "E", pairRec "6" 10 "F"]
            [] []) zeroMetrics)).top_pairs.length ≤ 5 ∧
    (finalizeMetrics
        (foldMetrics "a"
          (mergeRecords
            [pairRec "1" 500 "A", pairRec "2" 300 "B", pairRec "3" 200 "C",
             pairRec "4" 100 "D", pairRec "5" 50 "E", pairRec "6" 10 "F"]
            [] []) zeroMetrics)).top_pairs.Pairwise (fun x y => y.2 ≤ x.2) :=
  top_pair_selection.1 ["a"]
    [pairRec "1" 500 "A", pairRec "2" 300 "B", pairRec "3" 200 "C",
     pairRec "4" 100 "D", pairRec "5" 50 "E", pairRec "6" 10 "F"]
    [] [] "a" _
    (by rw [aggregate_lookup, if_pos (show "a" ∈ ["a"] by decide)])

/-- Counterexample to C7 as stated: nothing in the code prevents a
negative raw `amountUSD`, and one negative record (`negRec`, −5 USD,
origin `"a"`, sender `"b"`) makes `"a"`'s execution volume negative and
leaves `"b"` with involved volume −5 strictly below its execution
volume 0 — the claimed invariants fail on possible inputs. -/
theorem walletMetrics_invariant_cex :
    (lookupKey (aggregate ["a", "b"] [negRec] [] []).per "a").map
        (fun m => m.volume_execution_usd) = some (-5) ∧
    (lookupKey (aggregate ["a", "b"] [negRec] [] []).per "b").map
        (fun m => decide (m.volume_execution_usd ≤ m.volume_involved_usd)) =
      some false := by
  have hmerge : mergeRecords [negRec] [] [] = [negRec] := by decide
  have hlook : ∀ x ∈ ["a", "b"],
      lookupKey (aggregate ["a", "b"] [negRec] [] []).per x =
        some (finalizeMetrics (foldMetrics x [negRec] zeroMetrics)) := by
    intro x hx
    rw [aggregate_lookup, if_pos hx, hmerge]
  have hva : (foldMetrics "a" [negRec] zeroMetrics).volume_execution_usd
      = -5 := by
    rw [foldMetrics_exec_vol]
    have hf : List.filter (execHit "a") [negRec] = [negRec] := by decide
    rw [hf]
    show (0 : Rat) + (usdOf negRec + 0) = -5
    norm_num [usdOf, negRec]
  have hvb1 : (foldMetrics "b" [negRec] zeroMetrics).volume_execution_usd
      = 0 := by
    rw [foldMetrics_exec_vol]
    have hf : List.filter (execHit "b") [negRec] = [] := by decide
    rw [hf]
    show (0 : Rat) + 0 = 0
    norm_num
  have hvb2 : (foldMetrics "b" [negRec] zeroMetrics).volume_involved_usd
      = -5 := by
    rw [foldMetrics_inv_vol]
    have hf : List.filter (invHit "b") [negRec] = [negRec] := by decide
    rw [hf]
    show (0 : Rat) + (usdOf negRec + 0) = -5
    norm_num [usdOf, negRec]
  constructor
  · rw [hlook "a" (by decide)]
    show some (foldMetrics "a" [negRec]
        zeroMetrics).volume_execution_usd = some (-5)
    rw [hva]
  · rw [hlook "b" (by decide)]
    show some (decide
        ((foldMetrics "b" [negRec] zeroMetrics).volume_execution_usd ≤
         (foldMetrics "b" [negRec] zeroMetrics).volume_involved_usd)) =
      some false
    rw [hvb1, hvb2]
    norm_num

/-- C7 (amended) — WalletMetrics invariant under non-negative USD
amounts: whenever every raw record's (defaulted) USD amount is ≥ 0,
each finalized entry satisfies: execution volume ≥ 0, involved count ≥
execution count, involved volume ≥ execution volume (and hence involved
volume ≥ 0; both counts are naturals, so ≥ 0 by type). -/
theorem walletMetrics_invariant_amended (addrs : List String)
    (o s r : List SwapRecord) (a : String) (m : WalletMetrics)
    (hpos : ∀ x ∈ o ++ s ++ r, 0 ≤ usdOf x)
    (hm : lookupKey (aggregate addrs o s r).per a = some m) :
    0 ≤ m.volume_execution_usd ∧
    m.swaps_execution ≤ m.swaps_involved ∧
    m.volume_execution_usd ≤ m.volume_involved_usd ∧
    0 ≤ m.volume_involved_usd := by
  rw [aggregate_lookup] at hm
  by_cases ha : a ∈ addrs
  · rw [if_pos ha] at hm
    have hx := Option.some.inj hm
    subst hx
    have hsub : ∀ x ∈ mergeRecords o s r, 0 ≤ usdOf x := fun x hx =>
      hpos x (dedupByIdAux_subset _ [] hx)
    have hexecvol :
        (finalizeMetrics
            (foldMetrics a (mergeRecords o s r)
              zeroMetrics)).volume_execution_usd =
          (((mergeRecords o s r).filter (execHit a)).map usdOf).sum := by
      show (foldMetrics a (mergeRecords o s r)
          zeroMetrics).volume_execution_usd = _
      rw [foldMetrics_exec_vol]
      show (0 : Rat) + _ = _
      rw [zero_add]
    have hinvvol :
        (finalizeMetrics
            (foldMetrics a (mergeRecords o s r)
              zeroMetrics)).volume_involved_usd =
          (((mergeRecords o s r).filter (invHit a)).map usdOf).sum := by
      show (foldMetrics a (mergeRecords o s r)
          zeroMetrics).volume_involved_usd = _
      rw [foldMetrics_inv_vol]
      show (0 : Rat) + _ = _
      rw [zero_add]
    have hexecn :
        (finalizeMetrics
            (foldMetrics a (mergeRecords o s r)
              zeroMetrics)).swaps_execution =
          (mergeRecords o s r).countP (execHit a) := by
      show (foldMetrics a (mergeRecords o s r)
          zeroMetrics).swaps_execution = _
      rw [foldMetrics_exec_count]
      show 0 + _ = _
      rw [Nat.zero_add]
    have hinvn :
        (finalizeMetrics
            (foldMetrics a (mergeRecords o s r)
              zeroMetrics)).swaps_involved =
          (mergeRecords o s r).countP (invHit a) := by
      show (foldMetrics a (mergeRecords o s r)
          zeroMetrics).swaps_involved = _
      rw [foldMetrics_inv_count]
      show 0 + _ = _
      rw [Nat.zero_add]
    have hnonneg : ∀ p : SwapRecord → Bool,
        (0 : Rat) ≤ (((mergeRecords o s r).filter p).map usdOf).sum := by
      intro p
      apply List.sum_nonneg
      intro v hv
      rcases List.mem_map.mp hv with ⟨y, hy, hyv⟩
      exact hyv ▸ hsub y (List.mem_filter.mp hy).1
    refine ⟨?_, ?_, ?_, ?_⟩
    · rw [hexecvol]
      exact hnonneg (execHit a)
    · rw [hexecn, hinvn]
      exact List.countP_mono_left (fun x _ => execHit_invHit a x)
    · rw [hexecvol, hinvvol]
      exact sum_filter_mono _ (execHit a) (invHit a) usdOf
        (fun x _ => execHit_invHit a x) hsub
    · rw [hinvvol]
      exact hnonneg (invHit a)
  · rw [if_neg ha] at hm
    exact Option.noConfusion hm

/-- Witness for C7 (amended) at a concrete aggregation with
non-negative amounts. -/
theorem walletMetrics_invariant_amended_witness :
    0 ≤ (finalizeMetrics
          (foldMetrics "0xabc" (mergeRecords [wrec, dualRoleRec] [] [])
            zeroMetrics)).volume_execution_usd ∧
    (finalizeMetrics
        (foldMetrics "0xabc" (mergeRecords [wrec, dualRoleRec] [] [])
          zeroMetrics)).swaps_execution ≤
      (finalizeMetrics
          (foldMetrics "0xabc" (mergeRecords [wrec, dualRoleRec] [] [])
            zeroMetrics)).swaps_involved ∧
    (finalizeMetrics
        (foldMetrics "0xabc" (mergeRecords [wrec, dualRoleRec] [] [])
          zeroMetrics)).volume_execution_usd ≤
      (finalizeMetrics
          (foldMetrics "0xabc" (mergeRecords [wrec, dualRoleRec] [] [])
            zeroMetrics)).volume_involved_usd ∧
    0 ≤ (finalizeMetrics
          (foldMetrics "0xabc" (mergeRecords [wrec, dualRoleRec] [] [])
            zeroMetrics)).volume_involved_usd :=
  walletMetrics_invariant_amended ["0xabc"] [wrec, dualRoleRec] [] []
    "0xabc" _ (by decide)
    (by rw [aggregate_lookup, if_pos (show "0xabc" ∈ ["0xabc"] by decide)])

/-- Every input record's id is represented in the merged list. -/
theorem dedupByIdAux_covers (l : List SwapRecord) :
    ∀ (seen : List String) (x : SwapRecord), x ∈ l → x.id ∉ seen →
      ∃ y ∈ dedupByIdAux seen l, y.id = x.id := by
  induction l with
  | nil =>
    intro seen x hx _
    exact absurd hx (List.not_mem_nil x)
  | cons s rest ih =>
    intro seen x hx hfresh
    by_cases hs : s.id ∈ seen
    · rw [dedupByIdAux, if_pos hs]
      rcases List.mem_cons.mp hx with rfl | hx
      · exact absurd hs hfresh
      · exact ih seen x hx hfresh
    · rw [dedupByIdAux, if_neg hs]
      rcases List.mem_cons.mp hx with rfl | hx
      · exact ⟨x, List.mem_cons_self x _, rfl⟩
      · by_cases hid : x.id = s.id
        · exact ⟨s, List.mem_cons_self s _, hid.symm⟩
        · rcases ih (s.id :: seen) x hx
            (by
              intro hmem
              rcases List.mem_cons.mp hmem with h | h
              · exact hid h
              · exact hfresh h) with ⟨y, hy, hyid⟩
          exact ⟨y, List.mem_cons_of_mem s hy, hyid⟩

/-- When field values are consistent per id, deduplication preserves
membership exactly. -/
theorem mem_dedup_iff (l : List SwapRecord)
    (hcons : ∀ x ∈ l, ∀ y ∈ l, x.id = y.id → x = y) (x : SwapRecord) :
    x ∈ dedupByIdAux [] l ↔ x ∈ l := by
  constructor
  · exact fun hx => dedupByIdAux_subset l [] hx
  · intro hx
    rcases dedupByIdAux_covers l [] x hx (List.not_mem_nil _) with ⟨y, hy, hyid⟩
    have := hcons y (dedupByIdAux_subset l [] hy) x hx hyid
    exact this ▸ hy

/-- The merged record list never repeats a record. -/
theorem mergeRecords_nodup (o s r : List SwapRecord) :
    (mergeRecords o s r).Nodup :=
  List.Nodup.of_map SwapRecord.id (dedupByIdAux_ids (o ++ s ++ r) []).1

/-- Two arrangements of the same records (consistent per id) merge to
permuted record lists. -/
theorem mergeRecords_perm (o1 s1 r1 o2 s2 r2 : List SwapRecord)
    (hperm : (o1 ++ s1 ++ r1).Perm (o2 ++ s2 ++ r2))
    (hcons : ∀ x ∈ o1 ++ s1 ++ r1, ∀ y ∈ o1 ++ s1 ++ r1,
      x.id = y.id → x = y) :
    (mergeRecords o1 s1 r1).Perm (mergeRecords o2 s2 r2) := by
  have hcons2 : ∀ x ∈ o2 ++ s2 ++ r2, ∀ y ∈ o2 ++ s2 ++ r2,
      x.id = y.id → x = y := fun x hx y hy =>
    hcons x (hperm.mem_iff.mpr hx) y (hperm.mem_iff.mpr hy)
  apply (List.perm_ext_iff_of_nodup (mergeRecords_nodup o1 s1 r1)
    (mergeRecords_nodup o2 s2 r2)).mpr
  intro x
  rw [mergeRecords, mergeRecords, mem_dedup_iff _ hcons,
    mem_dedup_iff _ hcons2]
  exact hperm.mem_iff

/-- `allCount` is the number of distinct merged records. -/
theorem aggregate_allCount (addrs : List String) (o s r : List SwapRecord) :
    (aggregate addrs o s r).allCount = (mergeRecords o s r).length := rfl

/-- Lookup in the raw (pre-finalization) accumulation. -/
theorem aggregatePer_lookup (addrs : List String) (o s r : List SwapRecord)
    (a : String) :
    lookupKey (aggregatePer addrs o s r) a =
      if a ∈ addrs then
        some (foldMetrics a (mergeRecords o s r) zeroMetrics)
      else none := by
  rw [aggregatePer, foldl_processRecord, perInit, List.map_map]
  show lookupKey (addrs.map (fun k =>
    (k, foldMetrics k (mergeRecords o s r) zeroMetrics))) a = _
  rw [lookupKey_map_key]

/-- Counterexample to C8 as stated: two arrangements of the same two
records (both executed by `"a"`, equal 10 USD volumes on pairs `P/T` and
`Q/T`) produce differently ordered finalized top-pair lists, because the
stable descending sort breaks the tie by accumulation order.  Exact
arithmetic is used throughout, so the difference is not a float
artefact. -/
theorem order_independence_cex :
    (lookupKey (aggregate ["a"] [pairRec "1" 10 "P"] [pairRec "2" 10 "Q"]
        []).per "a").map (fun m => m.top_pairs) ≠
      (lookupKey (aggregate ["a"] [pairRec "2" 10 "Q"] [pairRec "1" 10 "P"]
          []).per "a").map (fun m => m.top_pairs) := by
  decide

/-- C8 (amended) — Order independence of everything except tied
top-pair ordering: under exact arithmetic, any two arrangements of the
same record contents (consistent per identifier) across the three input
lists yield the same distinct-record total, the same four numeric
metrics for every address, and the same accumulated USD total for every
pair of every address; the finalized top-pair lists, however, may order
or select pairs with tied totals differently (see the counterexample),
and float summation order in the original ports over to last-bit
effects. -/
theorem order_independence_amended (addrs : List String)
    (o1 s1 r1 o2 s2 r2 : List SwapRecord) (a q : String)
    (hperm : (o1 ++ s1 ++ r1).Perm (o2 ++ s2 ++ r2))
    (hcons : ∀ x ∈ o1 ++ s1 ++ r1, ∀ y ∈ o1 ++ s1 ++ r1,
      x.id = y.id → x = y) :
    (aggregate addrs o1 s1 r1).allCount =
      (aggregate addrs o2 s2 r2).allCount ∧
    (lookupKey (aggregate addrs o1 s1 r1).per a).map numericPart =
      (lookupKey (aggregate addrs o2 s2 r2).per a).map numericPart ∧
    (lookupKey (aggregatePer addrs o1 s1 r1) a).map
        (fun m => pairTotal m.top_pairs q) =
      (lookupKey (aggregatePer addrs o2 s2 r2) a).map
        (fun m => pairTotal m.top_pairs q) := by
  have hp := mergeRecords_perm o1 s1 r1 o2 s2 r2 hperm hcons
  have hnum : numericPart
      (foldMetrics a (mergeRecords o1 s1 r1) zeroMetrics) =
        numericPart (foldMetrics a (mergeRecords o2 s2 r2) zeroMetrics) := by
    rw [numericPart, numericPart, foldMetrics_exec_count,
      foldMetrics_exec_count, foldMetrics_exec_vol, foldMetrics_exec_vol,
      foldMetrics_inv_count, foldMetrics_inv_count, foldMetrics_inv_vol,
      foldMetrics_inv_vol, hp.countP_eq (execHit a),
      hp.countP_eq (invHit a),
      List.Perm.sum_eq ((hp.filter (execHit a)).map usdOf),
      List.Perm.sum_eq ((hp.filter (invHit a)).map usdOf)]
  refine ⟨?_, ?_, ?_⟩
  · rw [aggregate_allCount, aggregate_allCount]
    exact hp.length_eq
  · rw [aggregate_lookup, aggregate_lookup]
    by_cases ha : a ∈ addrs
    · rw [if_pos ha, if_pos ha]
      show some (numericPart (finalizeMetrics _)) =
        some (numericPart (finalizeMetrics _))
      rw [finalizeMetrics_numeric, finalizeMetrics_numeric, hnum]
    · rw [if_neg ha, if_neg ha]
  · rw [aggregatePer_lookup, aggregatePer_lookup]
    by_cases ha : a ∈ addrs
    · rw [if_pos ha, if_pos ha]
      show some (pairTotal _ q) = some (pairTotal _ q)
      rw [foldMetrics_pairTotal, foldMetrics_pairTotal,
        List.Perm.sum_eq
          ((hp.filter (fun s => execHit a s && (q = pairKey s))).map usdOf)]
    · rw [if_neg ha, if_neg ha]

/-- Witness for C8 (amended) on the two concrete arrangements of the
tie counterexample: the numeric metrics, `allCount` and the `P/T`
accumulation agree even though the finalized pair lists differ. -/
theorem order_independence_amended_witness :
    (aggregate ["a"] [pairRec "1" 10 "P"] [pairRec "2" 10 "Q"]
        []).allCount =
      (aggregate ["a"] [pairRec "2" 10 "Q"] [pairRec "1" 10 "P"]
          []).allCount ∧
    (lookupKey (aggregate ["a"] [pairRec "1" 10 "P"] [pairRec "2" 10 "Q"]
        []).per "a").map numericPart =
      (lookupKey (aggregate ["a"] [pairRec "2" 10 "Q"] [pairRec "1" 10 "P"]
          []).per "a").map numericPart ∧
    (lookupKey (aggregatePer ["a"] [pairRec "1" 10 "P"] [pairRec "2" 10 "Q"]
        []) "a").map (fun m => pairTotal m.top_pairs "P/T") =
      (lookupKey (aggregatePer ["a"] [pairRec "2" 10 "Q"]
          [pairRec "1" 10 "P"] []) "a").map
        (fun m => pairTotal m.top_pairs "P/T") :=
  order_independence_amended ["a"] [pairRec "1" 10 "P"] [pairRec "2" 10 "Q"]
    [] [pairRec "2" 10 "Q"] [pairRec "1" 10 "P"] [] "a" "P/T"
    (by decide) (by decide)
